import Mathlib

/-!
Verification development for a TikTok-style hook-video generator.

The repository composites a user image and a caption ("hook") into a fixed
1080x1920 video: a dark canvas, an opaque white caption panel at the top,
and the image scaled to full width fading in linearly after 2 seconds.
It also ingests Reddit posts through a scraping gateway and asks an LLM
gateway for hook suggestions.

Modelling conventions for the shallow embedding:
* Python strings are lists of characters (`Str`); `str.split()`, `' '.join`,
  `str.strip()` and `str.split("\n")` are translated as executable functions.
* Python floats are modelled as exact rationals; all times/fade factors in
  the source stay far from representation boundaries at the values the
  program uses, and `int(x)` on a nonnegative value is rational floor.
* PIL images are width, height and a total pixel function; `paste` with an
  RGBA mask, the alpha `point` map and `convert("RGB")` act on that model.
  Font rasterisation and resampling are external binary artefacts (TrueType
  fonts, LANCZOS kernels), so text measurement (`textbbox` width), glyph
  drawing (`draw.text`) and `Image.resize` are explicit function parameters:
  every theorem holds for all of them.
* Network calls (OpenRouter, Apify) are modelled by passing the remote
  response as an explicit argument, together with a flag recording whether
  the code path performs a request at all.
-/

/-- Python strings, modelled as lists of characters. -/
abbrev Str := List Char

/-- Characters Python's `str.split()` treats as separators. -/
def isSpaceC (c : Char) : Bool := c.isWhitespace

/-- Worker for `pySplit`: `acc` is the word currently being accumulated. -/
def splitWsAux : Str → Str → List Str
  | [], acc => if acc = [] then [] else [acc]
  | c :: rest, acc =>
    if isSpaceC c then
      if acc = [] then splitWsAux rest [] else acc :: splitWsAux rest []
    else splitWsAux rest (acc ++ [c])

/-- Python `text.split()`: split on runs of whitespace, dropping empties. -/
def pySplit (s : Str) : List Str := splitWsAux s []

/-- Python `' '.join(ws)`. -/
def joinSpace : List Str → Str
  | [] => []
  | [w] => w
  | w :: ws => w ++ ' ' :: joinSpace ws

/-- Python `s.strip()`: remove leading and trailing whitespace. -/
def pyStrip (s : Str) : Str :=
  ((s.dropWhile isSpaceC).reverse.dropWhile isSpaceC).reverse

/-- Worker for `splitNl`. -/
def splitNlAux : Str → Str → List Str
  | [], acc => [acc]
  | c :: rest, acc =>
    if c = '\n' then acc :: splitNlAux rest [] else splitNlAux rest (acc ++ [c])

/-- Python `s.split("\n")`: split at every newline, keeping empty pieces. -/
def splitNl (s : Str) : List Str := splitNlAux s []

/-- The greedy accumulation loop of `wrap_text` (src/app.py lines 66-86 and
src/image_hook_builder.py lines 20-41), producing the groups of words that
each committed line joins: test the current line extended by the next word
against `maxW`; on overflow commit the current line (if nonempty) and start
a fresh line with the word. `measure` is the `textbbox` width of a string. -/
def wrapLoop (measure : Str → Nat) (maxW : Nat) : List Str → List Str → List (List Str)
  | [], cur => if cur = [] then [] else [cur]
  | w :: ws, cur =>
    if measure (joinSpace (cur ++ [w])) ≤ maxW then
      wrapLoop measure maxW ws (cur ++ [w])
    else if cur = [] then
      wrapLoop measure maxW ws [w]
    else
      cur :: wrapLoop measure maxW ws [w]

/-- `wrap_text(text, font, max_width)` from the source: split into words,
run the greedy loop, join each committed group with single spaces. -/
def wrap_text (text : Str) (measure : Str → Nat) (maxW : Nat) : List Str :=
  (wrapLoop measure maxW (pySplit text) []).map joinSpace

theorem wrapLoop_flatten (m : Str → Nat) (x : Nat) :
    ∀ (ws cur : List Str), (wrapLoop m x ws cur).flatten = cur ++ ws := by
  intro ws
  induction ws with
  | nil =>
    intro cur
    by_cases h : cur = [] <;> simp [wrapLoop, h]
  | cons w ws ih =>
    intro cur
    by_cases h1 : m (joinSpace (cur ++ [w])) ≤ x
    · simp [wrapLoop, h1, ih]
    · by_cases h2 : cur = [] <;> simp [wrapLoop, h1, h2, ih]

theorem wrapLoop_ne_nil (m : Str → Nat) (x : Nat) :
    ∀ (ws cur : List Str), ∀ g ∈ wrapLoop m x ws cur, g ≠ [] := by
  intro ws
  induction ws with
  | nil =>
    intro cur g hg
    by_cases h : cur = [] <;> simp [wrapLoop, h] at hg
    subst hg; exact h
  | cons w ws ih =>
    intro cur g hg
    by_cases h1 : m (joinSpace (cur ++ [w])) ≤ x
    · exact ih _ g (by simpa [wrapLoop, h1] using hg)
    · by_cases h2 : cur = []
      · exact ih _ g (by simpa [wrapLoop, h1, h2] using hg)
      · simp only [wrapLoop, h1, if_false, h2, if_neg h2, List.mem_cons] at hg
        rcases hg with rfl | hg
        · exact h2
        · exact ih _ g hg

/-- A committed group either measures within the width once joined, or is a
single word. -/
def groupOk (m : Str → Nat) (x : Nat) (g : List Str) : Prop :=
  m (joinSpace g) ≤ x ∨ ∃ w, g = [w]

theorem wrapLoop_ok (m : Str → Nat) (x : Nat) :
    ∀ (ws cur : List Str), (cur = [] ∨ groupOk m x cur) →
      ∀ g ∈ wrapLoop m x ws cur, groupOk m x g := by
  intro ws
  induction ws with
  | nil =>
    intro cur hcur g hg
    by_cases h : cur = [] <;> simp [wrapLoop, h] at hg
    subst hg
    rcases hcur with h' | h'
    · exact absurd h' h
    · exact h'
  | cons w ws ih =>
    intro cur hcur g hg
    by_cases h1 : m (joinSpace (cur ++ [w])) ≤ x
    · exact ih _ (Or.inr (Or.inl h1)) g (by simpa [wrapLoop, h1] using hg)
    · by_cases h2 : cur = []
      · exact ih _ (Or.inr (Or.inr ⟨w, rfl⟩)) g (by simpa [wrapLoop, h1, h2] using hg)
      · simp only [wrapLoop, h1, if_false, if_neg h2, List.mem_cons] at hg
        rcases hg with rfl | hg
        · rcases hcur with h' | h'
          · exact absurd h' h2
          · exact h'
        · exact ih _ (Or.inr (Or.inr ⟨w, rfl⟩)) g hg

theorem splitWsAux_word (s : Str) :
    ∀ (w acc : Str), (∀ c ∈ w, isSpaceC c = false) →
      splitWsAux (w ++ s) acc = splitWsAux s (acc ++ w) := by
  intro w
  induction w with
  | nil => intro acc _; simp
  | cons c w ih =>
    intro acc hw
    have hc : isSpaceC c = false := hw c (by simp)
    have hw' : ∀ d ∈ w, isSpaceC d = false := fun d hd => hw d (by simp [hd])
    simp only [List.cons_append, splitWsAux, hc, Bool.false_eq_true, if_false]
    have h2 : splitWsAux (w ++ s) (acc ++ [c]) = splitWsAux s (acc ++ [c] ++ w) :=
      ih (acc ++ [c]) hw'
    rw [List.append_assoc] at h2
    simp only [List.singleton_append] at h2
    exact h2

theorem splitWsAux_sep (c : Char) (hc : isSpaceC c = true) (t : Str) :
    ∀ (s acc : Str), splitWsAux (s ++ c :: t) acc = splitWsAux s acc ++ splitWsAux t [] := by
  intro s
  induction s with
  | nil =>
    intro acc
    by_cases h : acc = [] <;> simp [splitWsAux, hc, h]
  | cons d s ih =>
    intro acc
    by_cases hd : isSpaceC d
    · by_cases h : acc = [] <;> simp [splitWsAux, hd, h, ih]
    · simp [splitWsAux, hd, ih]

theorem pySplit_words (s : Str) :
    ∀ w ∈ pySplit s, w ≠ [] ∧ ∀ c ∈ w, isSpaceC c = false := by
  have key : ∀ (s acc : Str), (∀ c ∈ acc, isSpaceC c = false) →
      ∀ w ∈ splitWsAux s acc, w ≠ [] ∧ ∀ c ∈ w, isSpaceC c = false := by
    intro s
    induction s with
    | nil =>
      intro acc hacc w hw
      by_cases h : acc = [] <;> simp [splitWsAux, h] at hw
      subst hw; exact ⟨h, hacc⟩
    | cons c s ih =>
      intro acc hacc w hw
      by_cases hc : isSpaceC c
      · by_cases h : acc = []
        · exact ih [] (by simp) w (by simpa [splitWsAux, hc, h] using hw)
        · simp only [splitWsAux, hc, if_true, if_neg h, List.mem_cons] at hw
          rcases hw with rfl | hw
          · exact ⟨h, hacc⟩
          · exact ih [] (by simp) w hw
      · refine ih (acc ++ [c]) ?_ w (by simpa [splitWsAux, hc] using hw)
        intro d hd
        rcases List.mem_append.mp hd with hd | hd
        · exact hacc d hd
        · simp only [List.mem_singleton] at hd
          subst hd
          simpa using hc
  exact key s [] (by simp)

theorem pySplit_append_space (s t : Str) :
    pySplit (s ++ ' ' :: t) = pySplit s ++ pySplit t :=
  splitWsAux_sep ' ' (by decide) t s []

theorem pySplit_joinSpace :
    ∀ (ws : List Str), (∀ w ∈ ws, w ≠ [] ∧ ∀ c ∈ w, isSpaceC c = false) →
      pySplit (joinSpace ws) = ws := by
  intro ws
  induction ws with
  | nil => intro _; rfl
  | cons w ws ih =>
    intro h
    have hw := h w (by simp)
    cases ws with
    | nil =>
      show splitWsAux w [] = [w]
      have := splitWsAux_word [] w [] hw.2
      rw [List.append_nil] at this
      rw [this]
      simp [splitWsAux, hw.1]
    | cons w' ws' =>
      show pySplit (w ++ ' ' :: joinSpace (w' :: ws')) = w :: w' :: ws'
      rw [pySplit_append_space]
      rw [ih (fun u hu => h u (by simp [hu]))]
      have hsingle : pySplit w = [w] := by
        show splitWsAux w [] = [w]
        have := splitWsAux_word [] w [] hw.2
        rw [List.append_nil] at this
        rw [this]
        simp [splitWsAux, hw.1]
      rw [hsingle]
      rfl

theorem joinSpace_append (xs ys : List Str) (hx : xs ≠ []) (hy : ys ≠ []) :
    joinSpace (xs ++ ys) = joinSpace xs ++ ' ' :: joinSpace ys := by
  induction xs with
  | nil => exact absurd rfl hx
  | cons x xs ih =>
    cases xs with
    | nil =>
      cases ys with
      | nil => exact absurd rfl hy
      | cons y ys => simp [joinSpace]
    | cons x' xs' =>
      have := ih (by simp)
      show joinSpace (x :: ((x' :: xs') ++ ys)) = (x ++ ' ' :: joinSpace (x' :: xs')) ++ ' ' :: joinSpace ys
      have hne : (x' :: xs') ++ ys ≠ [] := by simp
      calc joinSpace (x :: ((x' :: xs') ++ ys))
          = x ++ ' ' :: joinSpace ((x' :: xs') ++ ys) := by
            cases h : (x' :: xs') ++ ys with
            | nil => exact absurd h hne
            | cons z zs => simp [joinSpace, h]
        _ = x ++ ' ' :: (joinSpace (x' :: xs') ++ ' ' :: joinSpace ys) := by rw [this]
        _ = (x ++ ' ' :: joinSpace (x' :: xs')) ++ ' ' :: joinSpace ys := by simp

theorem joinSpace_map_flatten :
    ∀ (gs : List (List Str)), (∀ g ∈ gs, g ≠ []) →
      joinSpace (gs.map joinSpace) = joinSpace gs.flatten := by
  intro gs
  induction gs with
  | nil => intro _; rfl
  | cons g gs ih =>
    intro h
    cases gs with
    | nil => simp [joinSpace]
    | cons g' gs' =>
      have hg : g ≠ [] := h g (by simp)
      have hg' : g' ≠ [] := h g' (by simp)
      have hflat : List.flatten (g' :: gs') ≠ [] := by
        simp only [List.flatten_cons]
        intro hcontra
        exact hg' (List.append_eq_nil.mp hcontra).1
      have ihh := ih (fun u hu => h u (by simp [hu]))
      have h2 : List.flatten (g :: g' :: gs') = g ++ List.flatten (g' :: gs') := by simp
      rw [List.map_cons, h2, joinSpace_append g (List.flatten (g' :: gs')) hg hflat, ← ihh]
      simp [joinSpace, List.map_cons]

/-- One RGBA pixel; each channel is a byte value of the PIL raster. -/
structure RGBA where
  r : Nat
  g : Nat
  b : Nat
  a : Nat
deriving DecidableEq

/-- A PIL image: pixel dimensions plus a total pixel function (queries
outside the raster are never used by the modelled operations). -/
structure Img where
  w : Nat
  h : Nat
  px : Nat → Nat → RGBA

/-- `Image.new(mode, (w, h), color)`: a constant raster. -/
def Img.fill (w h : Nat) (c : RGBA) : Img := ⟨w, h, fun _ _ => c⟩

/-- PIL's per-channel blend used by `paste` with an RGBA mask:
`out = (dest*(255-a) + src*a)/255`, rounded. -/
def blendChannel (d s a : Nat) : Nat := (d * (255 - a) + s * a + 127) / 255

/-- Blend one source pixel over a destination pixel, the source alpha being
the mask value. -/
def blend (d s : RGBA) : RGBA :=
  ⟨blendChannel d.r s.r s.a, blendChannel d.g s.g s.a,
   blendChannel d.b s.b s.a, blendChannel d.a s.a s.a⟩

/-- `dest.paste(src, (ox, oy), src)` for RGBA images: alpha-blend `src` over
`dest` at offset `(ox, oy)`, clipped to the destination canvas bounds (a
negative offset or an oversized source is simply cut off). -/
def pasteRGBA (dest src : Img) (ox oy : Int) : Img :=
  { w := dest.w, h := dest.h,
    px := fun x y =>
      if x < dest.w ∧ y < dest.h ∧
          0 ≤ (x : Int) - ox ∧ (x : Int) - ox < src.w ∧
          0 ≤ (y : Int) - oy ∧ (y : Int) - oy < src.h then
        blend (dest.px x y) (src.px ((x : Int) - ox).toNat ((y : Int) - oy).toNat)
      else dest.px x y }

/-- The fade of `build_frame`: split the bands, map the alpha band through
`lambda p: int(p * fade_progress)`, merge back. -/
def applyFade (im : Img) (fp : ℚ) : Img :=
  { im with px := fun x y =>
      let p := im.px x y
      { p with a := (Int.floor ((p.a : ℚ) * fp)).toNat } }

/-- `frame.convert("RGB")` before handing the raster to the encoder: the
alpha band is dropped (kept here as a constant 255). -/
def toRGB (im : Img) : Img :=
  { im with px := fun x y => { im.px x y with a := 255 } }

def VIDEO_WIDTH : Nat := 1080

def VIDEO_HEIGHT : Nat := 1920

/-- `int(VIDEO_HEIGHT * 0.12)` (evaluates to 230). -/
def top_padding : Nat := (Int.floor ((VIDEO_HEIGHT : ℚ) * (12 / 100))).toNat

def line_height : Nat := 54

def text_padding : Nat := 30

/-- First phase length in seconds (`black_duration = 2.0`). -/
def black_duration : ℚ := 2

/-- Fade length in seconds (`fade_duration = 3.0`). -/
def fade_duration : ℚ := 3

/-- `current_time = frame_idx / fps`. -/
def current_time (frame_idx fps : Nat) : ℚ := (frame_idx : ℚ) / (fps : ℚ)

/-- `fade_progress = min(1.0, (current_time - black_duration) / fade_duration)`. -/
def fade_progress (frame_idx fps : Nat) : ℚ :=
  min 1 ((current_time frame_idx fps - black_duration) / fade_duration)

/-- `white_box_height = top_padding + len(lines)*line_height + text_padding*2`. -/
def white_box_height (hook_text : Str) (measure : Str → Nat) : Nat :=
  top_padding + (wrap_text hook_text measure (VIDEO_WIDTH - 100)).length * line_height
    + text_padding * 2

/-- `new_h = int(img_h * scale)` with `scale = VIDEO_WIDTH / img_w`. -/
def new_h (image : Img) : Nat :=
  (Int.floor ((image.h : ℚ) * ((VIDEO_WIDTH : ℚ) / (image.w : ℚ)))).toNat

/-- `img_y = white_box_height + (VIDEO_HEIGHT - white_box_height - new_h) // 2`:
Python `//` is floor division; the divisor is the positive constant 2, where
floor division and Euclidean division agree, so this is an unclamped,
possibly negative integer. -/
def img_y (hook_text : Str) (measure : Str → Nat) (image : Img) : Int :=
  (white_box_height hook_text measure : Int) +
    Int.ediv ((VIDEO_HEIGHT : Int) - (white_box_height hook_text measure : Int)
      - (new_h image : Int)) 2

/-- Abstract `draw.text(im, (x, y), line, fill)`: glyph rasterisation depends
on an external TrueType font, so it is a parameter of the embedding. -/
abbrev DrawTextF := Img → Int → Int → Str → RGBA → Img

/-- Abstract `image.resize((w, h), LANCZOS)`: the resampling kernel is
external, so it is a parameter of the embedding. -/
abbrev ResizeF := Img → Nat → Nat → Img

/-- The white caption panel: a full-width opaque white image of height
`white_box_height`, with each wrapped line drawn centred
(`x = (VIDEO_WIDTH - text_width) // 2`) starting at
`start_y = top_padding + text_padding` and stacked by `line_height`. -/
def white_box (hook_text : Str) (measure : Str → Nat) (drawT : DrawTextF) : Img :=
  ((wrap_text hook_text measure (VIDEO_WIDTH - 100)).enum).foldl
    (fun im p =>
      drawT im (Int.ediv ((VIDEO_WIDTH : Int) - (measure p.2 : Int)) 2)
        ((top_padding + text_padding + p.1 * line_height : Nat) : Int)
        p.2 ⟨0, 0, 0, 255⟩)
    (Img.fill VIDEO_WIDTH (white_box_height hook_text measure) ⟨255, 255, 255, 255⟩)

/-- The frame before any image compositing: the dark `(12, 12, 15, 255)`
canvas with the caption panel pasted at `(0, 0)`. -/
def panel_frame (hook_text : Str) (measure : Str → Nat) (drawT : DrawTextF) : Img :=
  pasteRGBA (Img.fill VIDEO_WIDTH VIDEO_HEIGHT ⟨12, 12, 15, 255⟩)
    (white_box hook_text measure drawT) 0 0

/-- `build_frame(frame_idx, image, hook_text, fps)` (src/app.py lines 371-425,
src/image_hook_builder.py lines 44-118): build the panel frame; then, only
when `current_time >= black_duration` and `fade_progress > 0`, scale the image
to full canvas width, multiply its alpha band by `fade_progress`, and paste it
at `(0, img_y)`. -/
def build_frame (frame_idx : Nat) (image : Img) (hook_text : Str) (measure : Str → Nat)
    (drawT : DrawTextF) (resizeF : ResizeF) (fps : Nat) : Img :=
  if black_duration ≤ current_time frame_idx fps then
    if 0 < fade_progress frame_idx fps then
      pasteRGBA (panel_frame hook_text measure drawT)
        (applyFade (resizeF image VIDEO_WIDTH (new_h image)) (fade_progress frame_idx fps))
        0 (img_y hook_text measure image)
    else panel_frame hook_text measure drawT
  else panel_frame hook_text measure drawT

/-- The arguments `create_video` hands to the encoder
(`clip.write_videofile(output_path, codec="libx264", fps=fps,
preset="medium", bitrate="8000k")`). -/
structure EncoderCall where
  frames : List Img
  codec : Str
  fps : Nat
  preset : Str
  bitrate : Str

/-- `create_video(image_path, hook_text, output_path, duration=5, fps=24)`
(src/app.py lines 428-448): `total_frames = int(duration * fps)` (identity on
naturals), loop `for i in range(total_frames)` appending
`np.array(build_frame(i, ...).convert("RGB"))`, then hand the collected
sequence to the encoder. -/
def create_video (image : Img) (hook_text : Str) (measure : Str → Nat)
    (drawT : DrawTextF) (resizeF : ResizeF) (duration fps : Nat) : EncoderCall :=
  { frames :=
      (List.range (duration * fps)).foldl
        (fun acc i => acc ++ [toRGB (build_frame i image hook_text measure drawT resizeF fps)])
        [],
    codec := "libx264".toList, fps := fps,
    preset := "medium".toList, bitrate := "8000k".toList }

theorem build_frame_black (i : Nat) (image : Img) (text : Str) (m : Str → Nat)
    (dr : DrawTextF) (rs : ResizeF) (fps : Nat)
    (h : current_time i fps < black_duration) :
    build_frame i image text m dr rs fps = panel_frame text m dr := by
  unfold build_frame
  rw [if_neg (not_le.mpr h)]

theorem build_frame_paste (i : Nat) (image : Img) (text : Str) (m : Str → Nat)
    (dr : DrawTextF) (rs : ResizeF) (fps : Nat)
    (h1 : black_duration ≤ current_time i fps) (h2 : 0 < fade_progress i fps) :
    build_frame i image text m dr rs fps =
      pasteRGBA (panel_frame text m dr)
        (applyFade (rs image VIDEO_WIDTH (new_h image)) (fade_progress i fps))
        0 (img_y text m image) := by
  unfold build_frame
  rw [if_pos h1, if_pos h2]

theorem applyFade_one (im : Img) : applyFade im 1 = im := by
  unfold applyFade
  cases im
  congr 1
  funext x y
  simp

theorem fade_progress_eq_one (i fps : Nat) (h : 5 ≤ current_time i fps) :
    fade_progress i fps = 1 := by
  unfold fade_progress black_duration fade_duration
  have h1 : (1 : ℚ) ≤ (current_time i fps - 2) / 3 := by
    rw [le_div_iff₀ (by norm_num)]
    linarith
  exact min_eq_left h1

theorem fade_progress_mono (i j fps : Nat) (hfps : 0 < fps) (hij : i ≤ j) :
    fade_progress i fps ≤ fade_progress j fps := by
  unfold fade_progress current_time
  have hc : (0 : ℚ) < (fps : ℚ) := by exact_mod_cast hfps
  have hij' : (i : ℚ) / (fps : ℚ) ≤ (j : ℚ) / (fps : ℚ) :=
    (div_le_div_right hc).mpr (by exact_mod_cast hij)
  have h2 : ((i : ℚ) / (fps : ℚ) - black_duration) / fade_duration ≤
      ((j : ℚ) / (fps : ℚ) - black_duration) / fade_duration :=
    (div_le_div_right (by norm_num [fade_duration])).mpr (by linarith)
  exact min_le_min le_rfl h2

theorem foldl_append_singleton {α β : Type} (f : α → β) :
    ∀ (l : List α) (acc : List β),
      l.foldl (fun acc i => acc ++ [f i]) acc = acc ++ l.map f := by
  intro l
  induction l with
  | nil => intro acc; simp
  | cons a l ih => intro acc; simp [ih]

theorem create_video_frames (image : Img) (text : Str) (m : Str → Nat)
    (dr : DrawTextF) (rs : ResizeF) (duration fps : Nat) :
    (create_video image text m dr rs duration fps).frames =
      (List.range (duration * fps)).map
        (fun i => toRGB (build_frame i image text m dr rs fps)) := by
  unfold create_video
  simp [foldl_append_singleton]

/-- Outcome of one OpenRouter chat-completions call, as seen by the calling
code after the `try` block: either a successful 2xx response whose JSON
carries the model text, or any failure (transport error, non-success status
via `raise_for_status`, malformed/short JSON) which lands in the `except`
handler. -/
inductive LLMNet where
  | ok (content : Str)
  | failure
deriving DecidableEq

/-- `generate_hooks_with_llm(image_description, num_hooks=5)` (src/app.py
lines 89-127). Returns the hook list together with a flag recording whether
the OpenRouter request was performed: with no API key configured the call is
skipped entirely and a single placeholder is returned; on success the model
text is split on newlines, each piece stripped, blanks dropped, and the list
truncated to `num_hooks`; on failure a fixed 3-item fallback is returned. -/
def generate_hooks_with_llm (apiKey : Str) (imageDescription : Str) (numHooks : Nat)
    (net : LLMNet) : List Str × Bool :=
  if apiKey = [] then
    (["Add your hook text here...".toList], false)
  else
    match net with
    | .ok content =>
      ((((splitNl (pyStrip content)).map pyStrip).filter (fun h => ¬h.isEmpty)).take numHooks,
        true)
    | .failure =>
      (["When this hits different...".toList, "POV: You finally get it...".toList,
        "This is your sign...".toList], true)

/-- `rephrase_comment_as_hook(comment_text, post_title)` (src/app.py lines
277-338). With no API key configured it returns the comment unchanged without
a network call; on success it returns the stripped model text; every failure
is caught and the original comment returned. Totality of this function is
the model of `never raises`. -/
def rephrase_comment_as_hook (apiKey : Str) (commentText postTitle : Str)
    (net : LLMNet) : Str :=
  if apiKey = [] then commentText
  else
    match net with
    | .ok content => pyStrip content
    | .failure => commentText

/-- One stored Reddit comment: `{"text": body, "score": upVotes}`. -/
structure RComment where
  text : Str
  score : Int
deriving DecidableEq

/-- One returned Reddit post record (src/app.py lines 231-239). -/
structure RPost where
  id : Str
  title : Str
  image_url : Str
  score : Int
  permalink : Str
  top_comments : List RComment
deriving DecidableEq

/-- One item of the Apify dataset, after reading the `dataType` discriminator.
Fields read with `item.get(key, default)` whose default is another field or a
constructed string are `Option`s here; plain-string defaults are already
substituted by the caller. `other` covers any other `dataType`. -/
inductive RItem where
  | post (id : Str) (parsedId : Option Str) (title : Str) (imageUrls : List Str)
      (link : Str) (upVotes : Int) (url : Option Str)
  | comment (postId : Str) (body : Str) (upVotes : Int)
  | other
deriving DecidableEq

/-- Python-dict insertion `d[k] = v`: overwrite in place if the key exists
(keeping its position), else append at the end. -/
def dinsert {α : Type} (k : Str) (v : α) : List (Str × α) → List (Str × α)
  | [] => [(k, v)]
  | (k0, v0) :: rest => if k0 = k then (k0, v) :: rest else (k0, v0) :: dinsert k v rest

/-- Python-dict lookup `d[k]` / `k in d`. -/
def dget {α : Type} : List (Str × α) → Str → Option α
  | [], _ => none
  | (k0, v0) :: rest, k => if k0 = k then some v0 else dget rest k

/-- `image_url = image_urls[0] if image_urls else (link if link and
("i.redd.it" in link or link.endswith((".jpg",".jpeg",".png",".gif",".webp")))
else None)`; `[]` plays the role of both `None` and the falsy `""`. -/
def isImageLink (link : Str) : Bool :=
  decide (List.IsInfix "i.redd.it".toList link) ||
    [".jpg".toList, ".jpeg".toList, ".png".toList, ".gif".toList, ".webp".toList].any
      (fun e => decide (List.IsSuffix e link))

def resolve_image_url (imageUrls : List Str) (link : Str) : Str :=
  match imageUrls with
  | u :: _ => u
  | [] => if link ≠ [] ∧ isImageLink link then link else []

/-- The comment body filter `if body and 10 < len(body) < 300`. -/
def valid_body (b : Str) : Bool := ¬b.isEmpty && 10 < b.length && b.length < 300

/-- `item.get("url", f"https://reddit.com/r/{subreddit_name}")`. -/
def defaultPermalink (sub : Str) : Str := "https://reddit.com/r/".toList ++ sub

/-- The two mutable dicts of the ingestion loop: `posts` and
`comments_by_post`, both insertion-ordered and keyed by the raw item id. -/
structure RState where
  posts : List (Str × RPost)
  comments : List (Str × List RComment)

/-- One iteration of `for item in items` (src/app.py lines 215-252).
A post with a resolvable image URL is stored and its comment list reset to
`[]`; a post without one changes nothing; a comment registers its key and is
appended only when `valid_body` holds. -/
def processItem (sub : Str) (st : RState) : RItem → RState
  | .post id parsedId title imageUrls link upVotes url =>
    let image_url := resolve_image_url imageUrls link
    if image_url ≠ [] then
      { posts := dinsert id
          { id := parsedId.getD id, title := title, image_url := image_url,
            score := upVotes, permalink := url.getD (defaultPermalink sub),
            top_comments := [] } st.posts,
        comments := dinsert id [] st.comments }
    else st
  | .comment postId body upVotes =>
    let cs := (dget st.comments postId).getD []
    if valid_body body then
      { st with comments := dinsert postId (cs ++ [⟨body, upVotes⟩]) st.comments }
    else
      { st with comments := dinsert postId cs st.comments }
  | .other => st

/-- Stable insertion of a comment into a list sorted by descending score:
the comment goes after every element with a score at least as large. -/
def insertDesc (c : RComment) : List RComment → List RComment
  | [] => [c]
  | d :: ds => if d.score < c.score then c :: d :: ds else d :: insertDesc c ds

/-- `sorted(comments, key=lambda x: x["score"], reverse=True)`: a stable
descending sort by score. -/
def sortDesc (l : List RComment) : List RComment :=
  l.foldl (fun acc c => insertDesc c acc) []

/-- The matching loop (src/app.py lines 254-259): for each stored post, sort
its collected comments by descending score and keep the top 3. -/
def attach_comments (st : RState) : List RPost :=
  st.posts.map (fun p =>
    match dget st.comments p.1 with
    | some cs => { p.2 with top_comments := (sortDesc cs).take 3 }
    | none => p.2)

/-- Python list slicing `l[:n]`, including the negative-stop case
(`l[:-k]` drops the last `k` elements). -/
def pySlice {α : Type} (l : List α) (n : Int) : List α :=
  if 0 ≤ n then l.take n.toNat else l.take (l.length - (-n).toNat)

/-- `fetch_reddit_posts(subreddit_name, sort, limit)` (src/app.py lines
170-275) restricted to its dataset-processing core: the Apify run itself is
external, so the returned items are an argument. Partition the items into
posts and comments, attach each post's sorted top-3 comments, and return
`list(posts.values())[:limit]`. `sort` only affects the constructed scrape
URL and is unused here. -/
def fetch_reddit_posts (sub sort : Str) (limit : Int) (items : List RItem) : List RPost :=
  pySlice (attach_comments (items.foldl (processItem sub) ⟨[], []⟩)) limit

/-- The `GET /reddit/posts` route (src/app.py lines 1526-1534):
`limit = min(int(request.args.get("limit", 10)), 25)` then delegate.
`requested` is the parsed integer query parameter. -/
def get_reddit_posts (requested : Int) (sub sort : Str) (items : List RItem) : List RPost :=
  fetch_reddit_posts sub sort (min requested 25) items

/-- The comments with a given post id that pass the body filter, in stream
order, as records. -/
def matching_comments (k : Str) (items : List RItem) : List RComment :=
  items.filterMap (fun it =>
    match it with
    | .comment pid body up =>
      if pid = k ∧ valid_body body then some ⟨body, up⟩ else none
    | _ => none)

/-- An item that resets the stored comment list for key `k`: a post item
with raw id `k` and a resolvable image URL. -/
def resets (k : Str) : RItem → Bool
  | .post id _ _ imageUrls link _ _ => k = id && resolve_image_url imageUrls link ≠ []
  | _ => false

theorem dget_dinsert_self {α : Type} (k : Str) (v : α) :
    ∀ d, dget (dinsert k v d) k = some v := by
  intro d
  induction d with
  | nil => simp [dinsert, dget]
  | cons p rest ih =>
    obtain ⟨k0, v0⟩ := p
    by_cases h : k0 = k
    · simp [dinsert, dget, h]
    · simp [dinsert, dget, h, ih]

theorem dget_dinsert_ne {α : Type} (k k' : Str) (v : α) (h : k' ≠ k) :
    ∀ d, dget (dinsert k v d) k' = dget d k' := by
  have hk : ¬(k = k') := fun hc => h hc.symm
  intro d
  induction d with
  | nil => simp [dinsert, dget, hk]
  | cons p rest ih =>
    obtain ⟨k0, v0⟩ := p
    by_cases h0 : k0 = k
    · subst h0
      simp [dinsert, dget, hk]
    · simp [dinsert, dget, h0, ih]

theorem mem_of_dget {α : Type} (k : Str) (v : α) :
    ∀ d, dget d k = some v → (k, v) ∈ d := by
  intro d
  induction d with
  | nil => intro h; simp [dget] at h
  | cons p rest ih =>
    obtain ⟨k0, v0⟩ := p
    intro h
    by_cases h0 : k0 = k
    · subst h0
      simp [dget] at h
      simp [h]
    · simp only [dget, h0, if_false] at h
      exact List.mem_cons_of_mem _ (ih h)

theorem mem_dinsert {α : Type} (k : Str) (v : α) (x : Str × α) :
    ∀ d, x ∈ dinsert k v d → x = (k, v) ∨ x ∈ d := by
  intro d
  induction d with
  | nil => intro h; simpa [dinsert] using h
  | cons p rest ih =>
    obtain ⟨k0, v0⟩ := p
    intro h
    by_cases h0 : k0 = k
    · subst h0
      rcases (by simpa [dinsert] using h : x = (k0, v) ∨ x ∈ rest) with h1 | h1
      · exact Or.inl h1
      · exact Or.inr (List.mem_cons_of_mem _ h1)
    · rcases (by simpa [dinsert, h0] using h : x = (k0, v0) ∨ x ∈ dinsert k v rest) with h1 | h1
      · exact Or.inr (by simp [h1])
      · rcases ih h1 with h2 | h2
        · exact Or.inl h2
        · exact Or.inr (List.mem_cons_of_mem _ h2)

theorem mem_insertDesc (c x : RComment) :
    ∀ l, x ∈ insertDesc c l ↔ x = c ∨ x ∈ l := by
  intro l
  induction l with
  | nil => simp [insertDesc]
  | cons d ds ih =>
    by_cases h : d.score < c.score
    · simp [insertDesc, h]
    · simp [insertDesc, h, ih]
      tauto

theorem insertDesc_sorted (c : RComment) :
    ∀ l, List.Pairwise (fun a b => b.score ≤ a.score) l →
      List.Pairwise (fun a b => b.score ≤ a.score) (insertDesc c l) := by
  intro l
  induction l with
  | nil => intro _; simp [insertDesc]
  | cons d ds ih =>
    intro hs
    by_cases h : d.score < c.score
    · simp only [insertDesc, h, if_true]
      refine List.Pairwise.cons ?_ hs
      intro x hx
      rcases List.mem_cons.mp hx with rfl | hx
      · exact le_of_lt h
      · exact le_trans ((List.pairwise_cons.mp hs).1 x hx) (le_of_lt h)
    · simp only [insertDesc, h, if_false]
      refine List.Pairwise.cons ?_ (ih (List.pairwise_cons.mp hs).2)
      intro x hx
      rcases (mem_insertDesc c x ds).mp hx with rfl | hx
      · exact le_of_not_lt h
      · exact (List.pairwise_cons.mp hs).1 x hx

theorem sortDesc_sorted_aux :
    ∀ (l acc : List RComment), List.Pairwise (fun a b => b.score ≤ a.score) acc →
      List.Pairwise (fun a b => b.score ≤ a.score)
        (l.foldl (fun acc c => insertDesc c acc) acc) := by
  intro l
  induction l with
  | nil => intro acc h; simpa using h
  | cons c l ih => intro acc h; exact ih _ (insertDesc_sorted c acc h)

theorem sortDesc_sorted (l : List RComment) :
    List.Pairwise (fun a b => b.score ≤ a.score) (sortDesc l) :=
  sortDesc_sorted_aux l [] (by simp)

theorem mem_sortDesc (x : RComment) :
    ∀ (l acc : List RComment), x ∈ l.foldl (fun acc c => insertDesc c acc) acc →
      x ∈ acc ∨ x ∈ l := by
  intro l
  induction l with
  | nil => intro acc h; exact Or.inl h
  | cons c l ih =>
    intro acc h
    rcases ih _ h with h1 | h1
    · rcases (mem_insertDesc c x acc).mp h1 with rfl | h2
      · simp
      · exact Or.inl h2
    · simp [h1]

theorem processItem_post_resolvable (sub : Str) (st : RState) (pk : Str)
    (parsedId : Option Str) (title : Str) (imageUrls : List Str) (link : Str)
    (upVotes : Int) (url : Option Str)
    (h : resolve_image_url imageUrls link ≠ []) :
    processItem sub st (.post pk parsedId title imageUrls link upVotes url) =
      { posts := dinsert pk
          { id := parsedId.getD pk, title := title,
            image_url := resolve_image_url imageUrls link, score := upVotes,
            permalink := url.getD (defaultPermalink sub), top_comments := [] } st.posts,
        comments := dinsert pk [] st.comments } := by
  simp [processItem, h]

theorem processItem_post_bad (sub : Str) (st : RState) (pk : Str)
    (parsedId : Option Str) (title : Str) (imageUrls : List Str) (link : Str)
    (upVotes : Int) (url : Option Str)
    (h : resolve_image_url imageUrls link = []) :
    processItem sub st (.post pk parsedId title imageUrls link upVotes url) = st := by
  simp [processItem, h]

theorem processItem_comment_eq (sub : Str) (st : RState) (pid body : Str) (up : Int) :
    processItem sub st (.comment pid body up) =
      { st with comments :=
          dinsert pid ((dget st.comments pid).getD [] ++
            (if valid_body body then [⟨body, up⟩] else [])) st.comments } := by
  by_cases h : valid_body body <;> simp [processItem, h]

/-- Every comment list stored in the state passes the body filter. -/
def comments_valid (st : RState) : Prop :=
  ∀ k cs, dget st.comments k = some cs → ∀ c ∈ cs, valid_body c.text = true

/-- Every post stored in the state still has an empty `top_comments`. -/
def posts_plain (st : RState) : Prop :=
  ∀ p ∈ st.posts, (Prod.snd p).top_comments = []

theorem processItem_comments_valid (sub : Str) (st : RState) (it : RItem)
    (h : comments_valid st) : comments_valid (processItem sub st it) := by
  cases it with
  | post pk parsedId title imageUrls link upVotes url =>
    by_cases hres : resolve_image_url imageUrls link = []
    · rw [processItem_post_bad sub st pk parsedId title imageUrls link upVotes url hres]
      exact h
    · rw [processItem_post_resolvable sub st pk parsedId title imageUrls link upVotes url hres]
      intro k cs hk c hc
      by_cases hkid : k = pk
      · subst hkid
        rw [dget_dinsert_self] at hk
        injection hk with hcs
        subst hcs
        simp at hc
      · rw [dget_dinsert_ne pk k _ hkid] at hk
        exact h k cs hk c hc
  | comment pid body up =>
    rw [processItem_comment_eq]
    intro k cs hk c hc
    by_cases hkid : k = pid
    · subst hkid
      rw [dget_dinsert_self] at hk
      injection hk with hcs
      subst hcs
      rcases List.mem_append.mp hc with hc1 | hc1
      · cases hdg : dget st.comments k with
        | none => rw [hdg] at hc1; simp at hc1
        | some cs0 =>
          rw [hdg] at hc1
          exact h k cs0 hdg c hc1
      · by_cases hv : valid_body body
        · rw [if_pos hv] at hc1
          simp only [List.mem_singleton] at hc1
          subst hc1
          exact hv
        · rw [if_neg hv] at hc1
          simp at hc1
    · rw [dget_dinsert_ne pid k _ hkid] at hk
      exact h k cs hk c hc
  | other => exact h

theorem processItem_posts_plain (sub : Str) (st : RState) (it : RItem)
    (h : posts_plain st) : posts_plain (processItem sub st it) := by
  cases it with
  | post pk parsedId title imageUrls link upVotes url =>
    by_cases hres : resolve_image_url imageUrls link = []
    · rw [processItem_post_bad sub st pk parsedId title imageUrls link upVotes url hres]
      exact h
    · rw [processItem_post_resolvable sub st pk parsedId title imageUrls link upVotes url hres]
      intro p hp
      rcases mem_dinsert _ _ p st.posts hp with h1 | h1
      · subst h1; rfl
      · exact h p h1
  | comment pid body up =>
    rw [processItem_comment_eq]
    intro p hp
    exact h p hp
  | other => exact h

theorem fold_comments_valid (sub : Str) :
    ∀ (items : List RItem) (st : RState), comments_valid st →
      comments_valid (items.foldl (processItem sub) st) := by
  intro items
  induction items with
  | nil => intro st h; exact h
  | cons it items ih =>
    intro st h
    exact ih _ (processItem_comments_valid sub st it h)

theorem fold_posts_plain (sub : Str) :
    ∀ (items : List RItem) (st : RState), posts_plain st →
      posts_plain (items.foldl (processItem sub) st) := by
  intro items
  induction items with
  | nil => intro st h; exact h
  | cons it items ih =>
    intro st h
    exact ih _ (processItem_posts_plain sub st it h)

theorem matching_comments_cons_post (k pk : Str) (parsedId : Option Str) (title : Str)
    (imageUrls : List Str) (link : Str) (upVotes : Int) (url : Option Str) (l : List RItem) :
    matching_comments k (.post pk parsedId title imageUrls link upVotes url :: l) =
      matching_comments k l := by
  simp [matching_comments]

theorem matching_comments_cons_other (k : Str) (l : List RItem) :
    matching_comments k (.other :: l) = matching_comments k l := by
  simp [matching_comments]

theorem matching_comments_cons_comment (k pid body : Str) (up : Int) (l : List RItem) :
    matching_comments k (.comment pid body up :: l) =
      (if pid = k ∧ valid_body body then [(⟨body, up⟩ : RComment)] else []) ++
        matching_comments k l := by
  by_cases h : pid = k ∧ valid_body body <;> simp [matching_comments, h]

theorem fold_comments_no_reset (sub k : Str) :
    ∀ (l : List RItem) (st : RState) (cs : List RComment),
      dget st.comments k = some cs →
      (∀ it ∈ l, resets k it = false) →
      dget ((l.foldl (processItem sub) st)).comments k =
        some (cs ++ matching_comments k l) := by
  intro l
  induction l with
  | nil =>
    intro st cs h _
    simpa [matching_comments] using h
  | cons it l ih =>
    intro st cs h hres
    have hit : resets k it = false := hres it (by simp)
    have hrest : ∀ j ∈ l, resets k j = false := fun j hj => hres j (by simp [hj])
    cases it with
    | post pk parsedId title imageUrls link upVotes url =>
      rw [matching_comments_cons_post]
      by_cases hr : resolve_image_url imageUrls link = []
      · rw [List.foldl_cons,
          processItem_post_bad sub st pk parsedId title imageUrls link upVotes url hr]
        exact ih st cs h hrest
      · have hkne : k ≠ pk := by
          intro hc
          subst hc
          simp [resets, hr] at hit
        rw [List.foldl_cons,
          processItem_post_resolvable sub st pk parsedId title imageUrls link upVotes url hr]
        refine ih _ cs ?_ hrest
        show dget (dinsert pk [] st.comments) k = some cs
        rw [dget_dinsert_ne pk k _ hkne]
        exact h
    | comment pid body up =>
      rw [matching_comments_cons_comment, List.foldl_cons, processItem_comment_eq]
      by_cases hpid : pid = k
      · subst hpid
        have hcs : (dget st.comments pid).getD [] = cs := by rw [h]; rfl
        rw [hcs]
        have hget : dget (dinsert pid (cs ++ (if valid_body body then [(⟨body, up⟩ : RComment)] else [])) st.comments) pid = some (cs ++ (if valid_body body then [(⟨body, up⟩ : RComment)] else [])) :=
          dget_dinsert_self pid _ st.comments
        rw [ih ⟨st.posts, dinsert pid (cs ++ (if valid_body body then [(⟨body, up⟩ : RComment)] else [])) st.comments⟩ _ hget hrest]
        by_cases hv : valid_body body <;> simp [hv]
      · have hkne : k ≠ pid := fun hc => hpid hc.symm
        have hget : dget (dinsert pid ((dget st.comments pid).getD [] ++ (if valid_body body then [(⟨body, up⟩ : RComment)] else [])) st.comments) k = some cs := by
          rw [dget_dinsert_ne pid k _ hkne]
          exact h
        rw [ih ⟨st.posts, dinsert pid ((dget st.comments pid).getD [] ++ (if valid_body body then [(⟨body, up⟩ : RComment)] else [])) st.comments⟩ cs hget hrest]
        simp [hpid]
    | other =>
      rw [matching_comments_cons_other, List.foldl_cons]
      exact ih st cs h hrest

theorem fold_posts_no_reset (sub k : Str) :
    ∀ (l : List RItem) (st : RState),
      (∀ it ∈ l, resets k it = false) →
      dget ((l.foldl (processItem sub) st)).posts k = dget st.posts k := by
  intro l
  induction l with
  | nil => intro st _; rfl
  | cons it l ih =>
    intro st hres
    have hit : resets k it = false := hres it (by simp)
    have hrest : ∀ j ∈ l, resets k j = false := fun j hj => hres j (by simp [hj])
    cases it with
    | post pk parsedId title imageUrls link upVotes url =>
      by_cases hr : resolve_image_url imageUrls link = []
      · rw [List.foldl_cons,
          processItem_post_bad sub st pk parsedId title imageUrls link upVotes url hr]
        exact ih st hrest
      · have hkne : k ≠ pk := by
          intro hc
          subst hc
          simp [resets, hr] at hit
        rw [List.foldl_cons,
          processItem_post_resolvable sub st pk parsedId title imageUrls link upVotes url hr,
          ih _ hrest]
        show dget (dinsert pk _ st.posts) k = dget st.posts k
        rw [dget_dinsert_ne pk k _ hkne]
    | comment pid body up =>
      rw [List.foldl_cons, processItem_comment_eq, ih _ hrest]
    | other =>
      rw [List.foldl_cons]
      exact ih st hrest

theorem pySlice_length_le {α : Type} (l : List α) (n : Int) (h : 0 ≤ n) :
    (pySlice l n).length ≤ n.toNat := by
  simp only [pySlice, if_pos h, List.length_take]
  exact min_le_left _ _

theorem mem_pySlice {α : Type} (l : List α) (n : Int) (x : α) :
    x ∈ pySlice l n → x ∈ l := by
  unfold pySlice
  by_cases h : 0 ≤ n
  · rw [if_pos h]; exact List.mem_of_mem_take
  · rw [if_neg h]; exact List.mem_of_mem_take

theorem attach_comments_mem_props (st : RState) (hplain : posts_plain st)
    (hvalid : comments_valid st) (p : RPost) (hp : p ∈ attach_comments st) :
    p.top_comments.length ≤ 3 ∧
      List.Pairwise (fun a b => b.score ≤ a.score) p.top_comments ∧
      ∀ c ∈ p.top_comments, valid_body c.text = true := by
  unfold attach_comments at hp
  rcases List.mem_map.mp hp with ⟨pair, hpair, hpeq⟩
  cases hdg : dget st.comments pair.1 with
  | none =>
    rw [hdg] at hpeq
    have hplaineq : (Prod.snd pair).top_comments = [] := hplain pair hpair
    rw [← hpeq]
    simp [hplaineq]
  | some cs =>
    rw [hdg] at hpeq
    have htc : p.top_comments = (sortDesc cs).take 3 := by rw [← hpeq]
    refine ⟨?_, ?_, ?_⟩
    · rw [htc, List.length_take]
      exact min_le_left _ _
    · rw [htc]
      exact (sortDesc_sorted cs).sublist (List.take_sublist _ _)
    · intro c hc
      rw [htc] at hc
      have hc1 : c ∈ sortDesc cs := List.mem_of_mem_take hc
      have hc2 : c ∈ cs := by
        rcases mem_sortDesc c cs [] hc1 with h0 | h0
        · simp at h0
        · exact h0
      exact hvalid pair.1 cs hdg c hc2

theorem fetch_post_characterization (sub sort : Str) (l1 l2 : List RItem)
    (pk : Str) (parsedId : Option Str) (title : Str) (imageUrls : List Str) (link : Str)
    (upVotes : Int) (url : Option Str)
    (hres : resolve_image_url imageUrls link ≠ [])
    (hl2 : ∀ it ∈ l2, resets pk it = false) :
    ({ id := parsedId.getD pk, title := title,
       image_url := resolve_image_url imageUrls link, score := upVotes,
       permalink := url.getD (defaultPermalink sub),
       top_comments := (sortDesc (matching_comments pk l2)).take 3 } : RPost) ∈
      attach_comments ((l1 ++ RItem.post pk parsedId title imageUrls link upVotes url :: l2).foldl
        (processItem sub) ⟨[], []⟩) := by
  rw [List.foldl_append, List.foldl_cons]
  rw [processItem_post_resolvable sub _ pk parsedId title imageUrls link upVotes url hres]
  have hc2 : dget (dinsert pk ([] : List RComment) (l1.foldl (processItem sub) ⟨[], []⟩).comments) pk = some [] :=
    dget_dinsert_self pk [] _
  have hc3 := fold_comments_no_reset sub pk l2 ⟨dinsert pk { id := parsedId.getD pk, title := title, image_url := resolve_image_url imageUrls link, score := upVotes, permalink := url.getD (defaultPermalink sub), top_comments := [] } (l1.foldl (processItem sub) ⟨[], []⟩).posts, dinsert pk [] (l1.foldl (processItem sub) ⟨[], []⟩).comments⟩ [] hc2 hl2
  rw [List.nil_append] at hc3
  have hp3 : dget ((l2.foldl (processItem sub) ⟨dinsert pk { id := parsedId.getD pk, title := title, image_url := resolve_image_url imageUrls link, score := upVotes, permalink := url.getD (defaultPermalink sub), top_comments := [] } (l1.foldl (processItem sub) ⟨[], []⟩).posts, dinsert pk [] (l1.foldl (processItem sub) ⟨[], []⟩).comments⟩)).posts pk = some { id := parsedId.getD pk, title := title, image_url := resolve_image_url imageUrls link, score := upVotes, permalink := url.getD (defaultPermalink sub), top_comments := [] } := by
    rw [fold_posts_no_reset sub pk l2 _ hl2]
    exact dget_dinsert_self pk _ _
  have hmem := mem_of_dget pk _ _ hp3
  unfold attach_comments
  refine List.mem_map.mpr ⟨_, hmem, ?_⟩
  rw [hc3]

theorem fetch_excludes_bad_post (sub sort : Str) (limit : Int) (l1 l2 : List RItem)
    (pk : Str) (parsedId : Option Str) (title : Str) (imageUrls : List Str) (link : Str)
    (upVotes : Int) (url : Option Str)
    (h : resolve_image_url imageUrls link = []) :
    fetch_reddit_posts sub sort limit
        (l1 ++ RItem.post pk parsedId title imageUrls link upVotes url :: l2) =
      fetch_reddit_posts sub sort limit (l1 ++ l2) := by
  unfold fetch_reddit_posts
  rw [List.foldl_append, List.foldl_cons,
    processItem_post_bad sub _ pk parsedId title imageUrls link upVotes url h,
    ← List.foldl_append]

/-- Concrete fixtures used by witness theorems: a length-based text measure,
a glyph drawer that leaves the raster unchanged, an exact resizer, and a few
concrete rasters. -/
def measureLen : Str → Nat := fun s => s.length

def drawTId : DrawTextF := fun im _ _ _ _ => im

def resizeExact : ResizeF := fun im w h => ⟨w, h, im.px⟩

def imgSmall : Img := Img.fill 4 6 ⟨1, 2, 3, 255⟩

def imgSmall2 : Img := Img.fill 2 2 ⟨9, 9, 9, 200⟩

def imgTall : Img := Img.fill 100 2000 ⟨7, 7, 7, 255⟩

def imgWide : Img := Img.fill 1080 1700 ⟨7, 7, 7, 255⟩

/-- C1: for every frame index, source image, hook text and positive frame
rate with `currentTime = frameIndex / frameRate < 2.0 = blackDuration`, the
compositor's frame is exactly the fixed-colour background canvas with only
the caption panel composited at the top (`panel_frame`), and it does not
depend on the source image in any way: the image draw is skipped entirely,
not even performed at zero opacity. -/
theorem black_phase_frame_is_panel_only (frame_idx fps : Nat) (image image2 : Img)
    (hook_text : Str) (measure : Str → Nat) (drawT : DrawTextF) (resizeF : ResizeF)
    (hfps : 0 < fps) (h : current_time frame_idx fps < black_duration) :
    build_frame frame_idx image hook_text measure drawT resizeF fps =
        panel_frame hook_text measure drawT ∧
      build_frame frame_idx image hook_text measure drawT resizeF fps =
        build_frame frame_idx image2 hook_text measure drawT resizeF fps := by
  refine ⟨build_frame_black frame_idx image hook_text measure drawT resizeF fps h, ?_⟩
  rw [build_frame_black frame_idx image hook_text measure drawT resizeF fps h,
    build_frame_black frame_idx image2 hook_text measure drawT resizeF fps h]

theorem black_phase_frame_is_panel_only_witness :
    build_frame 10 imgSmall "hi".toList measureLen drawTId resizeExact 24 =
        panel_frame "hi".toList measureLen drawTId ∧
      build_frame 10 imgSmall "hi".toList measureLen drawTId resizeExact 24 =
        build_frame 10 imgSmall2 "hi".toList measureLen drawTId resizeExact 24 :=
  black_phase_frame_is_panel_only 10 24 imgSmall imgSmall2 "hi".toList measureLen drawTId
    resizeExact (by norm_num) (by norm_num [current_time, black_duration])

/-- C2: for every source image, hook text and positive frame rate, the fade
factor applied to the image is monotonically non-decreasing in the frame
index while `currentTime` lies in `[2.0, 5.0)`; and for every frame with
`currentTime >= 5.0` the fade factor is clamped to 1, the alpha channel is
left unchanged by the fade map, and the image is composited at full
opacity. -/
theorem fade_factor_monotone_and_full_after_five_seconds (i j fps : Nat) (image : Img)
    (hook_text : Str) (measure : Str → Nat) (drawT : DrawTextF) (resizeF : ResizeF)
    (hfps : 0 < fps) :
    (i ≤ j → black_duration ≤ current_time i fps → current_time j fps < 5 →
      fade_progress i fps ≤ fade_progress j fps) ∧
    (5 ≤ current_time i fps →
      fade_progress i fps = 1 ∧
        applyFade (resizeF image VIDEO_WIDTH (new_h image)) (fade_progress i fps) =
          resizeF image VIDEO_WIDTH (new_h image) ∧
        build_frame i image hook_text measure drawT resizeF fps =
          pasteRGBA (panel_frame hook_text measure drawT)
            (resizeF image VIDEO_WIDTH (new_h image)) 0
            (img_y hook_text measure image)) := by
  constructor
  · intro hij _ _
    exact fade_progress_mono i j fps hfps hij
  · intro h5
    have h1 : fade_progress i fps = 1 := fade_progress_eq_one i fps h5
    have h2 : applyFade (resizeF image VIDEO_WIDTH (new_h image)) (fade_progress i fps) =
        resizeF image VIDEO_WIDTH (new_h image) := by
      rw [h1]
      exact applyFade_one _
    refine ⟨h1, h2, ?_⟩
    have hble : black_duration ≤ current_time i fps :=
      le_trans (by norm_num [black_duration]) h5
    have hpos : 0 < fade_progress i fps := by rw [h1]; norm_num
    rw [build_frame_paste i image hook_text measure drawT resizeF fps hble hpos, h2]

theorem fade_factor_full_after_five_seconds_witness :
    fade_progress 48 24 ≤ fade_progress 100 24 ∧
      (fade_progress 120 24 = 1 ∧
        applyFade (resizeExact imgSmall VIDEO_WIDTH (new_h imgSmall)) (fade_progress 120 24) =
          resizeExact imgSmall VIDEO_WIDTH (new_h imgSmall) ∧
        build_frame 120 imgSmall [] measureLen drawTId resizeExact 24 =
          pasteRGBA (panel_frame [] measureLen drawTId)
            (resizeExact imgSmall VIDEO_WIDTH (new_h imgSmall)) 0
            (img_y [] measureLen imgSmall)) :=
  ⟨(fade_factor_monotone_and_full_after_five_seconds 48 100 24 imgSmall [] measureLen drawTId
      resizeExact (by norm_num)).1 (by norm_num)
      (by norm_num [current_time, black_duration]) (by norm_num [current_time]),
   (fade_factor_monotone_and_full_after_five_seconds 120 120 24 imgSmall [] measureLen drawTId
      resizeExact (by norm_num)).2 (by norm_num [current_time])⟩

/-- C3: every line produced by `wrap_text` has measured width at most
`maxW`, except a line that is a single word of the input whose own measured
width exceeds `maxW`; such a word is still placed alone as its own line,
unmodified (no mid-word breaking). -/
theorem wrap_lines_fit_or_single_overwide_word (text : Str) (measure : Str → Nat)
    (maxW : Nat) (line : Str) (hline : line ∈ wrap_text text measure maxW) :
    measure line ≤ maxW ∨ (line ∈ pySplit text ∧ maxW < measure line) := by
  unfold wrap_text at hline
  rcases List.mem_map.mp hline with ⟨g, hg, rfl⟩
  have hok := wrapLoop_ok measure maxW (pySplit text) [] (Or.inl rfl) g hg
  rcases hok with h1 | ⟨w, rfl⟩
  · exact Or.inl h1
  · by_cases h2 : measure (joinSpace [w]) ≤ maxW
    · exact Or.inl h2
    · refine Or.inr ⟨?_, not_le.mp h2⟩
      have hwmem : w ∈ (wrapLoop measure maxW (pySplit text) []).flatten :=
        List.mem_flatten.mpr ⟨[w], hg, by simp⟩
      rw [wrapLoop_flatten measure maxW (pySplit text) []] at hwmem
      simpa [joinSpace] using hwmem

theorem wrap_lines_fit_witness :
    measureLen "aa".toList ≤ 2 ∨
      ("aa".toList ∈ pySplit "aa bb".toList ∧ 2 < measureLen "aa".toList) :=
  wrap_lines_fit_or_single_overwide_word "aa bb".toList measureLen 2 "aa".toList (by decide)

/-- C9: joining the lines produced by `wrap_text` back together with the
single-space line separator and re-splitting on whitespace recovers exactly
the whitespace-split word list of the input: no word is dropped, duplicated,
reordered or modified by wrapping; and empty or whitespace-only input yields
an empty line sequence. -/
theorem wrap_concatenation_preserves_words (text : Str) (measure : Str → Nat) (maxW : Nat) :
    pySplit (joinSpace (wrap_text text measure maxW)) = pySplit text ∧
      (pySplit text = [] → wrap_text text measure maxW = []) := by
  constructor
  · unfold wrap_text
    rw [joinSpace_map_flatten (wrapLoop measure maxW (pySplit text) [])
        (wrapLoop_ne_nil measure maxW (pySplit text) []),
      wrapLoop_flatten measure maxW (pySplit text) [], List.nil_append]
    exact pySplit_joinSpace (pySplit text) (pySplit_words text)
  · intro h
    unfold wrap_text
    rw [h]
    rfl

theorem wrap_concatenation_preserves_words_witness :
    pySplit (joinSpace (wrap_text [' ', ' '] measureLen 5)) = pySplit [' ', ' '] ∧
      wrap_text [' ', ' '] measureLen 5 = [] :=
  ⟨(wrap_concatenation_preserves_words [' ', ' '] measureLen 5).1,
   (wrap_concatenation_preserves_words [' ', ' '] measureLen 5).2 (by decide)⟩

/-- C4: whenever the image is drawn, it is pasted at horizontal offset 0 and
vertical offset `imageY = panelHeight + (canvasHeight - panelHeight -
scaledHeight) // 2`, with no clamping: the paste offset may be negative (a
concrete 100x2000 image yields a negative `imageY`) or push the image past
the canvas bottom edge (a concrete 1080x1700 image does), and the overflow
is cut only by the canvas bounds inside `pasteRGBA`. -/
theorem image_vertical_placement_formula_unclamped :
    (∀ (i fps : Nat) (image : Img) (hook_text : Str) (measure : Str → Nat)
        (drawT : DrawTextF) (resizeF : ResizeF),
      black_duration ≤ current_time i fps → 0 < fade_progress i fps →
      build_frame i image hook_text measure drawT resizeF fps =
        pasteRGBA (panel_frame hook_text measure drawT)
          (applyFade (resizeF image VIDEO_WIDTH (new_h image)) (fade_progress i fps)) 0
          ((white_box_height hook_text measure : Int) +
            Int.ediv ((VIDEO_HEIGHT : Int) - (white_box_height hook_text measure : Int) -
              (new_h image : Int)) 2)) ∧
      img_y [] measureLen imgTall < 0 ∧
      (VIDEO_HEIGHT : Int) < img_y [] measureLen imgWide + new_h imgWide := by
  refine ⟨?_, ?_, ?_⟩
  · intro i fps image hook_text measure drawT resizeF h1 h2
    exact build_frame_paste i image hook_text measure drawT resizeF fps h1 h2
  · norm_num [img_y, white_box_height, top_padding, new_h, imgTall, Img.fill, VIDEO_WIDTH,
      VIDEO_HEIGHT, line_height, text_padding, wrap_text, pySplit, splitWsAux, wrapLoop,
      Int.toNat_ofNat]
  · norm_num [img_y, white_box_height, top_padding, new_h, imgWide, Img.fill, VIDEO_WIDTH,
      VIDEO_HEIGHT, line_height, text_padding, wrap_text, pySplit, splitWsAux, wrapLoop,
      Int.toNat_ofNat]

theorem image_vertical_placement_witness :
    build_frame 120 imgTall [] measureLen drawTId resizeExact 24 =
      pasteRGBA (panel_frame [] measureLen drawTId)
        (applyFade (resizeExact imgTall VIDEO_WIDTH (new_h imgTall)) (fade_progress 120 24)) 0
        ((white_box_height [] measureLen : Int) +
          Int.ediv ((VIDEO_HEIGHT : Int) - (white_box_height [] measureLen : Int) -
            (new_h imgTall : Int)) 2) :=
  image_vertical_placement_formula_unclamped.1 120 24 imgTall [] measureLen drawTId
    resizeExact (by norm_num [current_time, black_duration])
    (by norm_num [fade_progress, current_time, black_duration, fade_duration])

/-- C5: the video assembler computes `totalFrames = int(duration * fps)`
(for natural inputs, `floor` of the product is the product itself), invokes
the compositor once per index `0 .. totalFrames - 1` in increasing order,
and hands exactly that sequence to the encoder; for duration 5 and fps 24 it
produces exactly 120 frames. -/
theorem assembler_produces_all_frames_in_order (image : Img) (hook_text : Str)
    (measure : Str → Nat) (drawT : DrawTextF) (resizeF : ResizeF) (duration fps : Nat) :
    (create_video image hook_text measure drawT resizeF duration fps).frames =
        (List.range (duration * fps)).map
          (fun i => toRGB (build_frame i image hook_text measure drawT resizeF fps)) ∧
      (create_video image hook_text measure drawT resizeF duration fps).frames.length =
        duration * fps ∧
      (create_video image hook_text measure drawT resizeF 5 24).frames.length = 120 := by
  refine ⟨create_video_frames image hook_text measure drawT resizeF duration fps, ?_, ?_⟩
  · rw [create_video_frames image hook_text measure drawT resizeF duration fps]
    simp
  · rw [create_video_frames image hook_text measure drawT resizeF 5 24]
    simp

/-- C7: for every image description and requested count, when no gateway
credential is configured (`OPENROUTER_API_KEY` empty and hence falsy),
`generate_hooks_with_llm` returns exactly one fallback placeholder string
and performs no network call, whatever the network would have answered. -/
theorem generate_hooks_no_credential_single_fallback (imageDescription : Str)
    (numHooks : Nat) (net : LLMNet) :
    generate_hooks_with_llm [] imageDescription numHooks net =
        (["Add your hook text here...".toList], false) ∧
      (generate_hooks_with_llm [] imageDescription numHooks net).1.length = 1 ∧
      (generate_hooks_with_llm [] imageDescription numHooks net).2 = false :=
  ⟨rfl, rfl, rfl⟩

/-- C8: the comment rephraser returns the stripped model response verbatim
on a successful call; on any failure (transport error, non-success status,
malformed response) it returns the original comment unchanged, and with no
credential configured it returns the original comment without a call; it is
a total function, which models `never raises`. -/
theorem rephrase_returns_trimmed_or_original (apiKey commentText postTitle content : Str)
    (net : LLMNet) :
    (apiKey ≠ [] →
      rephrase_comment_as_hook apiKey commentText postTitle (.ok content) =
        pyStrip content) ∧
      rephrase_comment_as_hook apiKey commentText postTitle .failure = commentText ∧
      rephrase_comment_as_hook [] commentText postTitle net = commentText := by
  refine ⟨?_, ?_, rfl⟩
  · intro h
    simp [rephrase_comment_as_hook, h]
  · by_cases h : apiKey = [] <;> simp [rephrase_comment_as_hook, h]

theorem rephrase_returns_trimmed_witness :
    (rephrase_comment_as_hook ['x'] "c".toList "t".toList (.ok "  hi  ".toList) =
        pyStrip "  hi  ".toList) ∧
      rephrase_comment_as_hook ['x'] "c".toList "t".toList .failure = "c".toList ∧
      rephrase_comment_as_hook [] "c".toList "t".toList (.ok "y".toList) = "c".toList :=
  ⟨(rephrase_returns_trimmed_or_original ['x'] "c".toList "t".toList "  hi  ".toList
      (.ok "y".toList)).1 (by decide),
   (rephrase_returns_trimmed_or_original ['x'] "c".toList "t".toList "  hi  ".toList
      (.ok "y".toList)).2.1,
   (rephrase_returns_trimmed_or_original [] "c".toList "t".toList "  hi  ".toList
      (.ok "y".toList)).2.2⟩

/-- C6 counterexample: a valid matching comment (post id matches, body
length 20 is strictly between 10 and 300, well within the cap of 3) that
arrives in the scraped item stream *before* its post is NOT attached: the
post branch of the ingestion loop resets `comments_by_post[post_id]` to `[]`
when it stores the post, discarding the comment, so the returned post has an
empty comment list — refuting the claim that comments are attached exactly
when the ids match. -/
theorem forum_comment_before_post_is_dropped :
    (fetch_reddit_posts ['s'] ['h'] 10
        [RItem.comment ['k'] (List.replicate 20 'a') 5,
         RItem.post ['k'] none [] [['u']] [] 0 none]).map
        (fun p => (p.id, p.top_comments)) = [(['k'], [])] ∧
      valid_body (List.replicate 20 'a') = true := by
  decide

/-- C6 (amended): a post item with no image-URL entries and a non-image link
is excluded from the results (removing it leaves the output unchanged); at
most `limit` posts are returned for a nonnegative `limit`; every returned
post's comments pass the strict 10..300 body-length filter, are sorted by
score descending, and are capped at 3; and for a post item with a resolvable
image URL, the comments attached to it are exactly the valid-bodied comments
whose post id matches the post item's raw id and which occur *after* the
last such image-resolvable post item in the stream, sorted and capped. -/
theorem forum_ingestion_amended (sub sort : Str) (limit : Int) (l1 l2 : List RItem)
    (pk : Str) (parsedId : Option Str) (title : Str) (imageUrls : List Str) (link : Str)
    (upVotes : Int) (url : Option Str) :
    (resolve_image_url imageUrls link = [] →
      fetch_reddit_posts sub sort limit
          (l1 ++ RItem.post pk parsedId title imageUrls link upVotes url :: l2) =
        fetch_reddit_posts sub sort limit (l1 ++ l2)) ∧
      (0 ≤ limit → (fetch_reddit_posts sub sort limit (l1 ++ l2)).length ≤ limit.toNat) ∧
      (∀ p ∈ fetch_reddit_posts sub sort limit (l1 ++ l2),
        p.top_comments.length ≤ 3 ∧
          List.Pairwise (fun a b => b.score ≤ a.score) p.top_comments ∧
          ∀ c ∈ p.top_comments, valid_body c.text = true) ∧
      (resolve_image_url imageUrls link ≠ [] →
        (∀ it ∈ l2, resets pk it = false) →
        ({ id := parsedId.getD pk, title := title,
           image_url := resolve_image_url imageUrls link, score := upVotes,
           permalink := url.getD (defaultPermalink sub),
           top_comments := (sortDesc (matching_comments pk l2)).take 3 } : RPost) ∈
          attach_comments
            ((l1 ++ RItem.post pk parsedId title imageUrls link upVotes url :: l2).foldl
              (processItem sub) ⟨[], []⟩)) := by
  refine ⟨?_, ?_, ?_, ?_⟩
  · intro h
    exact fetch_excludes_bad_post sub sort limit l1 l2 pk parsedId title imageUrls link
      upVotes url h
  · intro h
    exact pySlice_length_le _ limit h
  · intro p hp
    have hp2 : p ∈ attach_comments ((l1 ++ l2).foldl (processItem sub) ⟨[], []⟩) :=
      mem_pySlice _ limit p hp
    have hplain : posts_plain (⟨[], []⟩ : RState) := by
      intro q hq
      simp at hq
    have hvalid : comments_valid (⟨[], []⟩ : RState) := by
      intro k cs hk
      simp [dget] at hk
    exact attach_comments_mem_props _ (fold_posts_plain sub (l1 ++ l2) _ hplain)
      (fold_comments_valid sub (l1 ++ l2) _ hvalid) p hp2
  · intro hres hl2
    exact fetch_post_characterization sub sort l1 l2 pk parsedId title imageUrls link
      upVotes url hres hl2

theorem forum_ingestion_amended_witness :
    (fetch_reddit_posts ['s'] ['h'] 10
        ([] ++ RItem.post ['b'] none [] [] ['x'] 0 none :: []) =
      fetch_reddit_posts ['s'] ['h'] 10 ([] ++ [])) ∧
      (fetch_reddit_posts ['s'] ['h'] 10 ([] ++ [])).length ≤ (10 : Int).toNat ∧
      (⟨['k'], [], ['u'], 2, defaultPermalink ['s'],
          (sortDesc (matching_comments ['k']
            [RItem.comment ['k'] (List.replicate 20 'a') 5])).take 3⟩ : RPost) ∈
        attach_comments
          (([] ++ RItem.post ['k'] none [] [['u']] [] 2 none ::
              [RItem.comment ['k'] (List.replicate 20 'a') 5]).foldl
            (processItem ['s']) ⟨[], []⟩) :=
  ⟨(forum_ingestion_amended ['s'] ['h'] 10 [] [] ['b'] none [] [] ['x'] 0 none).1
      (by decide),
   (forum_ingestion_amended ['s'] ['h'] 10 [] [] ['b'] none [] [] ['x'] 0 none).2.1
      (by decide),
   (forum_ingestion_amended ['s'] ['h'] 10 []
      [RItem.comment ['k'] (List.replicate 20 'a') 5] ['k'] none [] [['u']] [] 2 none).2.2.2
      (by decide) (by decide)⟩

/-- C10 counterexample: the route passes `min(requested, 25)` unchanged even
when the requested limit is negative, and Python's `[:limit]` slicing with a
negative stop drops elements from the end instead of capping the count: with
`limit = -1` and 27 scraped image posts the endpoint returns 26 posts, more
than 25 — refuting the claim that at most 25 posts are ever returned. -/
theorem negative_limit_returns_more_than_25 :
    (get_reddit_posts (-1) ['s'] ['h']
        ((List.range 27).map (fun i =>
          RItem.post [Char.ofNat (65 + i)] none [] [['u']] [] 0 none))).length = 26 ∧
      min (-1 : Int) 25 = -1 ∧ ¬((26 : Nat) ≤ 25) := by
  refine ⟨by decide, by decide, by decide⟩

/-- C10 (amended): the `GET /reddit/posts` route passes
`min(requestedLimit, 25)` to forum ingestion, and for every nonnegative
requested limit the endpoint returns at most 25 posts (a negative requested
limit instead slices posts off the end of the list and can return more). -/
theorem reddit_posts_limit_min_cap (requested : Int) (sub sort : Str)
    (items : List RItem) :
    get_reddit_posts requested sub sort items =
        fetch_reddit_posts sub sort (min requested 25) items ∧
      (0 ≤ requested → (get_reddit_posts requested sub sort items).length ≤ 25) := by
  refine ⟨rfl, ?_⟩
  intro h
  have h2 : (0 : Int) ≤ min requested 25 := le_min h (by norm_num)
  refine le_trans (pySlice_length_le _ (min requested 25) h2) ?_
  have h3 : min requested 25 ≤ (25 : Int) := min_le_right _ _
  have h4 := Int.toNat_le_toNat h3
  simpa using h4

theorem reddit_posts_limit_min_cap_witness :
    get_reddit_posts 30 ['s'] ['h'] [] =
        fetch_reddit_posts ['s'] ['h'] (min 30 25) [] ∧
      (get_reddit_posts 30 ['s'] ['h'] []).length ≤ 25 :=
  ⟨(reddit_posts_limit_min_cap 30 ['s'] ['h'] []).1,
   (reddit_posts_limit_min_cap 30 ['s'] ['h'] []).2 (by norm_num)⟩
